import Mathlib

/-
Verification of the windowed memory-mapped file buffer and byte-scanning
layer of src/fileop.c.

Two embeddings are used, both executable:

1. A pure byte model for the scanning functions (fbuf_skip_to,
   fbuf_rskip_to, fbuf_skip_over, fbuf_rskip_over, fbuf_quotedstrlen,
   fbuf_skip_quote_to, fbuf_skip_esc_to).  The file content is a
   `List Nat` of byte values; `fbuf_at_pure` models `fbuf_at` in the
   absence of mapping failures: an in-range read returns the byte of the
   file at that position, an out-of-range read returns the error code -2
   (exactly what `fbuf_at` returns when `fbuf_mmap` rejects the
   position).  Each C `for` loop becomes a structurally recursive
   function on a fuel counter; the fuel is only an iteration budget (the
   C loop condition is re-checked verbatim at every step), chosen large
   enough in each wrapper that the budget is never the reason the loop
   stops.  A null byte-set pointer and an empty set behave identically
   in the source (one shared guard), so both are modelled as the empty
   list.

2. An explicit-state model of the window manager (`Fbuf`, `fbuf_init`,
   `fbuf_mmap`, `fbuf_at_st`, `fbuf_ptr_st`, `fbuf_read_st`).  The
   outcome of the mmap system call is an oracle parameter
   (`mmapFails`); the mapped pointer is modelled by the small type
   `MapPtr` (NULL, a live mapping, or the MAP_FAILED sentinel).  The
   ghost field `mapcalls` counts invocations of the mapping call, used
   to state the no-remap invariants.  Machine integers (int, long,
   int64) are modelled as `Int`; no arithmetic in the verified paths
   can overflow 64 bits for the file sizes considered.
-/

namespace Fileop

/-- Read of one byte at position `pos` of the file image `data`,
modelling `fbuf_at` when the underlying mapping succeeds: the byte value
for an in-range position, error code -2 for an out-of-range position
(`fbuf_mmap` returns -2 there and `fbuf_at` translates every negative
`fbuf_mmap` result to -2). -/
def fbuf_at_pure (data : List Nat) (pos : Int) : Int :=
  if pos < 0 ∨ (data.length : Int) ≤ pos then -2
  else ((data.getD pos.toNat 0 : Nat) : Int)

/-- Membership test of the byte value `fch` in the byte set `pat`,
modelling the inner `for (j = 0; j < patlen; j++) if (pat[j] == fch)`
loops of the scanners. -/
def hitPat (pat : List Nat) (fch : Int) : Bool :=
  pat.any fun b => ((b : Int) == fch)

/-- Scan bound used by all forward scanners, in the form the spec words
it: `min(scan_limit, file_size - start_pos)`, a negative limit meaning
no limit.  The wrappers below compute it exactly as the C code does; the
two computations are proved equal in `code_bound_eq_scanBound`. -/
def scanBound (data : List Nat) (pos lim : Int) : Int :=
  if 0 ≤ lim then min lim ((data.length : Int) - pos) else (data.length : Int) - pos

/-- Loop of `fbuf_skip_to`: `for (i = 0; i < fsize; i++)`, stop with
`pos + i` on a read failure or when the byte is in the set, else advance.
`bound` is the local `fsize` of the C function; `fuel` is the iteration
budget. -/
def skip_to_loop (data pat : List Nat) (pos bound : Int) : Int → Nat → Int
  | i, 0 => pos + i
  | i, fuel + 1 =>
    if i < bound then
      if fbuf_at_pure data (pos + i) < 0 then pos + i
      else if hitPat pat (fbuf_at_pure data (pos + i)) then pos + i
      else skip_to_loop data pat pos bound (i + 1) fuel
    else pos + i

/-- Model of `fbuf_skip_to`. -/
def fbuf_skip_to (data : List Nat) (pos skiplimit : Int) (pat : List Nat) : Int :=
  if pat.length = 0 then pos
  else
    let fsize := if 0 ≤ skiplimit ∧ skiplimit < (data.length : Int) - pos then skiplimit
                 else (data.length : Int) - pos
    skip_to_loop data pat pos fsize 0 (fsize.toNat + 1)

/-- Loop of `fbuf_rskip_to`: `for (i = 0; i <= pos; i++)` with the
in-loop break `if (skiplimit >= 0 && i >= skiplimit)`. -/
def rskip_to_loop (data pat : List Nat) (pos skiplimit : Int) : Int → Nat → Int
  | i, 0 => pos - i
  | i, fuel + 1 =>
    if i ≤ pos then
      if 0 ≤ skiplimit ∧ skiplimit ≤ i then pos - i
      else if fbuf_at_pure data (pos - i) < 0 then pos - i
      else if hitPat pat (fbuf_at_pure data (pos - i)) then pos - i
      else rskip_to_loop data pat pos skiplimit (i + 1) fuel
    else pos - i

/-- Model of `fbuf_rskip_to`. -/
def fbuf_rskip_to (data : List Nat) (pos skiplimit : Int) (pat : List Nat) : Int :=
  if pat.length = 0 then pos
  else if pos < 0 then 0
  else
    let p := if (data.length : Int) ≤ pos then (data.length : Int) - 1 else pos
    rskip_to_loop data pat p skiplimit 0 (p.toNat + 2)

/-- Loop of `fbuf_skip_over`: advance while the byte is in the set,
return the first position whose byte is not. -/
def skip_over_loop (data pat : List Nat) (pos bound : Int) : Int → Nat → Int
  | i, 0 => pos + i
  | i, fuel + 1 =>
    if i < bound then
      if fbuf_at_pure data (pos + i) < 0 then pos + i
      else if hitPat pat (fbuf_at_pure data (pos + i)) then
        skip_over_loop data pat pos bound (i + 1) fuel
      else pos + i
    else pos + i

/-- Model of `fbuf_skip_over`. -/
def fbuf_skip_over (data : List Nat) (pos skiplimit : Int) (pat : List Nat) : Int :=
  if pat.length = 0 then pos
  else
    let fsize := if 0 ≤ skiplimit ∧ skiplimit < (data.length : Int) - pos then skiplimit
                 else (data.length : Int) - pos
    skip_over_loop data pat pos fsize 0 (fsize.toNat + 1)

/-- Loop of `fbuf_rskip_over`. -/
def rskip_over_loop (data pat : List Nat) (pos skiplimit : Int) : Int → Nat → Int
  | i, 0 => pos - i
  | i, fuel + 1 =>
    if i ≤ pos then
      if 0 ≤ skiplimit ∧ skiplimit ≤ i then pos - i
      else if fbuf_at_pure data (pos - i) < 0 then pos - i
      else if hitPat pat (fbuf_at_pure data (pos - i)) then
        rskip_over_loop data pat pos skiplimit (i + 1) fuel
      else pos - i
    else pos - i

/-- Model of `fbuf_rskip_over`. -/
def fbuf_rskip_over (data : List Nat) (pos skiplimit : Int) (pat : List Nat) : Int :=
  if pat.length = 0 then pos
  else if pos ≤ 0 then pos
  else
    let p := if (data.length : Int) ≤ pos then (data.length : Int) - 1 else pos
    rskip_over_loop data pat p skiplimit 0 (p.toNat + 2)

/-- Loop of `fbuf_quotedstrlen`:
`for (i = 1; i < skiplimit && i < fsize - pos; i++)`, where a byte 92
(backslash) adds an extra increment, the quote byte that opened the run
returns `i + 1`, a read failure returns `i`, and leaving the loop
returns 1. -/
def quoted_loop (data : List Nat) (pos quote skiplimit : Int) : Int → Nat → Int
  | _, 0 => 1
  | i, fuel + 1 =>
    if i < skiplimit ∧ i < (data.length : Int) - pos then
      if fbuf_at_pure data (pos + i) < 0 then i
      else if fbuf_at_pure data (pos + i) = 92 then
        quoted_loop data pos quote skiplimit (i + 2) fuel
      else if fbuf_at_pure data (pos + i) = quote then i + 1
      else quoted_loop data pos quote skiplimit (i + 1) fuel
    else 1

/-- Model of `fbuf_quotedstrlen`.  Byte 34 is the double quote, byte 39
the single quote. -/
def fbuf_quotedstrlen (data : List Nat) (pos skiplimit : Int) : Int :=
  if (data.length : Int) ≤ pos then 0
  else
    let quote := fbuf_at_pure data pos
    if quote ≠ 34 ∧ quote ≠ 39 then 0
    else quoted_loop data pos quote skiplimit 1 (((data.length : Int) - pos).toNat + 1)

/-- Loop of `fbuf_skip_quote_to`: byte 92 followed by another in-bound
byte skips the pair; otherwise the byte is tested against the set; then
a quote byte (34 or 39) advances by `fbuf_quotedstrlen` of the rest of
the bound; otherwise advance by one. -/
def skip_quote_loop (data pat : List Nat) (pos bound : Int) : Int → Nat → Int
  | i, 0 => pos + i
  | i, fuel + 1 =>
    if i < bound then
      if fbuf_at_pure data (pos + i) < 0 then pos + i
      else if fbuf_at_pure data (pos + i) = 92 ∧ i + 1 < bound then
        skip_quote_loop data pat pos bound (i + 2) fuel
      else if hitPat pat (fbuf_at_pure data (pos + i)) then pos + i
      else if fbuf_at_pure data (pos + i) = 34 ∨ fbuf_at_pure data (pos + i) = 39 then
        skip_quote_loop data pat pos bound (i + fbuf_quotedstrlen data (pos + i) (bound - i)) fuel
      else skip_quote_loop data pat pos bound (i + 1) fuel
    else pos + i

/-- Model of `fbuf_skip_quote_to`. -/
def fbuf_skip_quote_to (data : List Nat) (pos skiplimit : Int) (pat : List Nat) : Int :=
  if pat.length = 0 then pos
  else
    let fsize := if 0 ≤ skiplimit ∧ skiplimit < (data.length : Int) - pos then skiplimit
                 else (data.length : Int) - pos
    skip_quote_loop data pat pos fsize 0 (fsize.toNat + 1)

/-- Loop of `fbuf_skip_esc_to`: byte 92 skips the following byte with no
bound check on the pair, otherwise the byte is tested against the set. -/
def skip_esc_loop (data pat : List Nat) (pos bound : Int) : Int → Nat → Int
  | i, 0 => pos + i
  | i, fuel + 1 =>
    if i < bound then
      if fbuf_at_pure data (pos + i) < 0 then pos + i
      else if fbuf_at_pure data (pos + i) = 92 then
        skip_esc_loop data pat pos bound (i + 2) fuel
      else if hitPat pat (fbuf_at_pure data (pos + i)) then pos + i
      else skip_esc_loop data pat pos bound (i + 1) fuel
    else pos + i

/-- Model of `fbuf_skip_esc_to`. -/
def fbuf_skip_esc_to (data : List Nat) (pos skiplimit : Int) (pat : List Nat) : Int :=
  if pat.length = 0 then pos
  else
    let fsize := if 0 ≤ skiplimit ∧ skiplimit < (data.length : Int) - pos then skiplimit
                 else (data.length : Int) - pos
    skip_esc_loop data pat pos fsize 0 (fsize.toNat + 1)

/-- Status of the `pbyte` pointer of the buffer: NULL (no window ever
mapped, or after close), a live mapping, or the MAP_FAILED sentinel
returned by a failed mmap call. -/
inductive MapPtr where
  | null
  | mapped
  | mapFailed
deriving DecidableEq

/-- State of the windowed buffer `fbuf_t`.  `mapcalls` is a ghost
counter of invocations of the mapping call, present only to express the
no-remap invariants; it shadows no C field and influences no value. -/
structure Fbuf where
  fsize : Int
  pagecount : Int
  pagesize : Int
  mapsize : Int
  mapoff : Int
  maplen : Int
  pbyte : MapPtr
  mapcalls : Nat
deriving DecidableEq

/-- Model of `fbuf_init`: the file name and descriptor are dropped, the
file size (from fstat) and the page size reported by sysconf are
parameters. -/
def fbuf_init (fsize pagecount sysPagesize : Int) : Fbuf :=
  let pc := if pagecount < 8 then 8 else pagecount
  let ps := if sysPagesize < 512 then 4096 else sysPagesize
  { fsize := fsize, pagecount := pc, pagesize := ps, mapsize := ps * pc,
    mapoff := 0, maplen := 0, pbyte := MapPtr.null, mapcalls := 0 }

/-- Model of `fbuf_mmap`.  Returns the C result code and the successor
state.  `mmapFails` is the oracle for the outcome of the mmap system
call performed when a remap is needed.  Note that on failure the code
has already overwritten `mapoff` and `maplen` with the new window and
`pbyte` holds MAP_FAILED. -/
def fbuf_mmap (fbf : Fbuf) (pos : Int) (mmapFails : Bool) : Int × Fbuf :=
  if pos < 0 ∨ fbf.fsize ≤ pos then (-2, fbf)
  else if pos < fbf.mapoff ∨ fbf.mapoff + fbf.maplen ≤ pos then
    let newoff := pos / fbf.pagesize * fbf.pagesize
    let newlen0 := fbf.fsize - newoff
    let newlen := if fbf.mapsize < newlen0 then fbf.mapsize else newlen0
    let s2 : Fbuf := { fbf with
      mapoff := newoff, maplen := newlen,
      pbyte := if mmapFails then MapPtr.mapFailed else MapPtr.mapped,
      mapcalls := fbf.mapcalls + 1 }
    if mmapFails then (-3, s2) else (0, s2)
  else (0, fbf)

/-- Bytes of the file image currently covered by the window: positions
`mapoff` to `mapoff + maplen` of `data`. -/
def window_bytes (fbf : Fbuf) (data : List Nat) : List Nat :=
  (data.drop fbf.mapoff.toNat).take fbf.maplen.toNat

/-- Model of `fbuf_at`: ensure the window covers `pos`, then read the
window at index `pos - mapoff`. -/
def fbuf_at_st (fbf : Fbuf) (data : List Nat) (pos : Int) (mmapFails : Bool) : Int × Fbuf :=
  let rs := fbuf_mmap fbf pos mmapFails
  if rs.1 < 0 then (-2, rs.2)
  else (((window_bytes rs.2 data).getD (pos - rs.2.mapoff).toNat 0 : Nat), rs.2)

/-- Model of `fbuf_ptr`: ensure the window covers `pos`, then return the
view into the window from index `pos - mapoff` on, together with the
number of bytes left in the window (the value stored through `plen`). -/
def fbuf_ptr_st (fbf : Fbuf) (data : List Nat) (pos : Int) (mmapFails : Bool) :
    Option (List Nat × Int) × Fbuf :=
  let rs := fbuf_mmap fbf pos mmapFails
  if rs.1 < 0 then (none, rs.2)
  else (some ((window_bytes rs.2 data).drop (pos - rs.2.mapoff).toNat,
              rs.2.maplen - (pos - rs.2.mapoff)), rs.2)

/-- Model of `fbuf_read`: ensure the window covers `pos`, clamp the
requested length to the bytes left in the window, copy that many bytes
out of the window, return the copied count, the copied bytes, and the
successor state. -/
def fbuf_read_st (fbf : Fbuf) (data : List Nat) (pos len : Int) (mmapFails : Bool) :
    Int × List Nat × Fbuf :=
  if len ≤ 0 then (-1, [], fbf)
  else
    let rs := fbuf_mmap fbf pos mmapFails
    if rs.1 < 0 then (-2, [], rs.2)
    else
      let alen := rs.2.maplen - (pos - rs.2.mapoff)
      let rlen := if alen < len then alen else len
      (rlen, ((window_bytes rs.2 data).drop (pos - rs.2.mapoff).toNat).take rlen.toNat, rs.2)

/-- States of the buffer reachable from `fbuf_init` (with a nonnegative
file size, as fstat reports for a regular file) by any sequence of
accesses, with arbitrary positions, lengths and mmap outcomes. -/
inductive Reachable : Fbuf → Prop where
  | init (fsize pagecount sysPagesize : Int) (hfs : 0 ≤ fsize) :
      Reachable (fbuf_init fsize pagecount sysPagesize)
  | mmap_step (fbf : Fbuf) (pos : Int) (fail : Bool) :
      Reachable fbf → Reachable (fbuf_mmap fbf pos fail).2
  | at_step (fbf : Fbuf) (data : List Nat) (pos : Int) (fail : Bool) :
      Reachable fbf → Reachable (fbuf_at_st fbf data pos fail).2
  | ptr_step (fbf : Fbuf) (data : List Nat) (pos : Int) (fail : Bool) :
      Reachable fbf → Reachable (fbuf_ptr_st fbf data pos fail).2
  | read_step (fbf : Fbuf) (data : List Nat) (pos len : Int) (fail : Bool) :
      Reachable fbf → Reachable (fbuf_read_st fbf data pos len fail).2.2

lemma at_pure_in_range (data : List Nat) (q : Int) (h0 : 0 ≤ q) (hl : q < (data.length : Int)) :
    fbuf_at_pure data q = ((data.getD q.toNat 0 : Nat) : Int) := by
  unfold fbuf_at_pure
  have h : ¬(q < 0 ∨ (data.length : Int) ≤ q) := by omega
  rw [if_neg h]

lemma at_pure_nonneg (data : List Nat) (q : Int) (h0 : 0 ≤ q) (hl : q < (data.length : Int)) :
    0 ≤ fbuf_at_pure data q := by
  rw [at_pure_in_range data q h0 hl]
  exact Int.natCast_nonneg _

lemma code_bound_eq_scanBound (data : List Nat) (pos lim : Int) :
    (if 0 ≤ lim ∧ lim < (data.length : Int) - pos then lim else (data.length : Int) - pos)
      = scanBound data pos lim := by
  unfold scanBound
  split_ifs <;> omega

lemma at_pure_neg (data : List Nat) (q : Int) (h : q < 0) : fbuf_at_pure data q = -2 := by
  unfold fbuf_at_pure
  rw [if_pos (Or.inl h)]

lemma scanBound_nonneg (data : List Nat) (pos lim : Int) (h : pos ≤ (data.length : Int)) :
    0 ≤ scanBound data pos lim := by
  unfold scanBound
  split_ifs <;> omega

lemma scanBound_le (data : List Nat) (pos lim : Int) :
    scanBound data pos lim ≤ (data.length : Int) - pos := by
  unfold scanBound
  split_ifs <;> omega

lemma skip_to_loop_no_hit (data pat : List Nat) (pos bound : Int)
    (hpos : 0 ≤ pos) (hb : bound ≤ (data.length : Int) - pos) :
    ∀ (fuel : ℕ) (i : Int), 0 ≤ i → i ≤ bound → (bound - i).toNat < fuel →
      (∀ k : Int, i ≤ k → k < bound → hitPat pat (fbuf_at_pure data (pos + k)) = false) →
      skip_to_loop data pat pos bound i fuel = pos + bound := by
  intro fuel
  induction fuel with
  | zero => intro i _ _ hf _; exact absurd hf (Nat.not_lt_zero _)
  | succ n ih =>
    intro i hi0 hib hf hnone
    by_cases hlt : i < bound
    · have hnn := at_pure_nonneg data (pos + i) (by omega) (by omega)
      have h1 : ¬ fbuf_at_pure data (pos + i) < 0 := by omega
      have h2 : ¬ (hitPat pat (fbuf_at_pure data (pos + i)) = true) := by
        rw [hnone i le_rfl hlt]; exact Bool.false_ne_true
      simp only [skip_to_loop]
      rw [if_pos hlt, if_neg h1, if_neg h2]
      exact ih (i + 1) (by omega) (by omega) (by omega)
        (fun k hk1 hk2 => hnone k (by omega) hk2)
    · simp only [skip_to_loop]
      rw [if_neg hlt]
      omega

lemma skip_to_loop_hit (data pat : List Nat) (pos bound : Int)
    (hpos : 0 ≤ pos) (hb : bound ≤ (data.length : Int) - pos) :
    ∀ (fuel : ℕ) (i k : Int), 0 ≤ i → i ≤ k → k < bound → (bound - i).toNat < fuel →
      (∀ j : Int, i ≤ j → j < k → hitPat pat (fbuf_at_pure data (pos + j)) = false) →
      hitPat pat (fbuf_at_pure data (pos + k)) = true →
      skip_to_loop data pat pos bound i fuel = pos + k := by
  intro fuel
  induction fuel with
  | zero => intro i k _ _ _ hf _ _; exact absurd hf (Nat.not_lt_zero _)
  | succ n ih =>
    intro i k hi0 hik hkb hf hnone hhit
    have hlt : i < bound := by omega
    have hnn := at_pure_nonneg data (pos + i) (by omega) (by omega)
    have h1 : ¬ fbuf_at_pure data (pos + i) < 0 := by omega
    simp only [skip_to_loop]
    rw [if_pos hlt, if_neg h1]
    rcases eq_or_lt_of_le hik with heq | hlt2
    · subst heq
      rw [if_pos hhit]
    · have h2 : ¬ (hitPat pat (fbuf_at_pure data (pos + i)) = true) := by
        rw [hnone i le_rfl hlt2]; exact Bool.false_ne_true
      rw [if_neg h2]
      exact ih (i + 1) k (by omega) (by omega) hkb (by omega)
        (fun j hj1 hj2 => hnone j (by omega) hj2) hhit

lemma fbuf_skip_to_eq_loop (data pat : List Nat) (pos lim : Int) (hpat : pat.length ≠ 0) :
    fbuf_skip_to data pos lim pat
      = skip_to_loop data pat pos (scanBound data pos lim) 0
          ((scanBound data pos lim).toNat + 1) := by
  simp only [fbuf_skip_to]
  rw [if_neg hpat, code_bound_eq_scanBound]

/-- Claim C10: with a null or empty delimiter set (both hit the shared
`!pat || patlen <= 0` guard, modelled as the empty list), every scanning
function returns `start_pos` unchanged, for every start position and
limit, before examining any byte. -/
theorem empty_set_scans_return_start :
    ∀ (data : List Nat) (pos lim : Int),
      fbuf_skip_to data pos lim [] = pos ∧ fbuf_rskip_to data pos lim [] = pos ∧
      fbuf_skip_over data pos lim [] = pos ∧ fbuf_rskip_over data pos lim [] = pos ∧
      fbuf_skip_quote_to data pos lim [] = pos ∧ fbuf_skip_esc_to data pos lim [] = pos :=
  fun _ _ _ => ⟨rfl, rfl, rfl, rfl, rfl, rfl⟩

/-- Claim C1: the code violates the fail-closed requirement.  On a 10-byte
file (page size 4096, 8 pages), a first access at position 0 whose mmap
call fails returns -3 but leaves `mapoff = 0`, `maplen = 10` and
`pbyte = MAP_FAILED`: the window fields describe a live-looking window
although nothing is mapped.  A subsequent `fbuf_mmap` at position 5
falls inside that stale window, performs no remap, and reports success
with `pbyte` still MAP_FAILED, so a following read would dereference the
MAP_FAILED sentinel. -/
theorem mmap_fail_leaves_stale_window :
    (fbuf_mmap (fbuf_init 10 8 4096) 0 true).1 = -3
    ∧ (fbuf_mmap (fbuf_init 10 8 4096) 0 true).2.pbyte = MapPtr.mapFailed
    ∧ (fbuf_mmap (fbuf_init 10 8 4096) 0 true).2.mapoff = 0
    ∧ (fbuf_mmap (fbuf_init 10 8 4096) 0 true).2.maplen = 10
    ∧ ¬((fbuf_mmap (fbuf_init 10 8 4096) 0 true).2.pbyte = MapPtr.null
         ∧ (fbuf_mmap (fbuf_init 10 8 4096) 0 true).2.maplen = 0)
    ∧ (fbuf_mmap ((fbuf_mmap (fbuf_init 10 8 4096) 0 true).2) 5 false).1 = 0
    ∧ (fbuf_mmap ((fbuf_mmap (fbuf_init 10 8 4096) 0 true).2) 5 false).2.pbyte
        = MapPtr.mapFailed := by
  decide

/-- Claim C3, counterexample: on the file with bytes 34 97 98 (a double quote
followed by two ordinary bytes, no closing quote), scanning from 0 with
bound 100 exhausts the file after examining all 3 bytes, yet
`fbuf_quotedstrlen` returns 1, not the number of bytes examined (3) the
claim requires for the unterminated case. -/
theorem quotedstrlen_unterminated_counterexample :
    fbuf_quotedstrlen [34, 97, 98] 0 100 = 1
    ∧ fbuf_quotedstrlen [34, 97, 98] 0 100 ≠ 3 := by
  decide

/-- Claim C7, counterexample: on the file with bytes 97 92 (an ordinary byte
then a backslash) with delimiter set {92}, the backslash is the last
in-bound byte, so the guard `i + 1 < fsize` of the pair-skip fails and
the backslash IS tested against the set: the scan returns position 1,
whose byte is the backslash itself.  The claim says a backslash
encountered by the scan is consumed as an escape pair and never tested
against the set, which would let the scan run to the bound
(position 2). -/
theorem skip_quote_backslash_tested_counterexample :
    fbuf_skip_quote_to [97, 92] 0 (-1) [92] = 1
    ∧ fbuf_at_pure [97, 92] 1 = 92
    ∧ hitPat [92] 92 = true
    ∧ fbuf_skip_quote_to [97, 92] 0 (-1) [92] ≠ 2 := by
  decide

/-- Claim C4: `fbuf_skip_to` examines bytes forward from `start_pos` within
`bound = min(scan_limit, file_size - start_pos)` (a negative limit
meaning no limit), returns the first position whose byte is in the set,
and returns exactly `start_pos + bound` when no byte within the bound
matches; over the file bytes of "ab,cd" with start 0, no limit and the
set containing the comma it returns 2. -/
theorem skip_to_characterization :
    (∀ (data pat : List Nat) (pos lim : Int), pat ≠ [] → 0 ≤ pos → pos ≤ (data.length : Int) →
      ((∀ k : Int, 0 ≤ k → k < scanBound data pos lim →
          hitPat pat (fbuf_at_pure data (pos + k)) = false) →
        fbuf_skip_to data pos lim pat = pos + scanBound data pos lim)
      ∧ (∀ k : Int, 0 ≤ k → k < scanBound data pos lim →
          (∀ j : Int, 0 ≤ j → j < k → hitPat pat (fbuf_at_pure data (pos + j)) = false) →
          hitPat pat (fbuf_at_pure data (pos + k)) = true →
          fbuf_skip_to data pos lim pat = pos + k))
    ∧ fbuf_skip_to [97, 98, 44, 99, 100] 0 (-1) [44] = 2 := by
  refine ⟨?_, by decide⟩
  intro data pat pos lim hpat hpos hple
  have hlen : pat.length ≠ 0 := fun h => hpat (List.length_eq_zero.mp h)
  have h0B := scanBound_nonneg data pos lim hple
  have hbB := scanBound_le data pos lim
  constructor
  · intro hno
    rw [fbuf_skip_to_eq_loop data pat pos lim hlen]
    exact skip_to_loop_no_hit data pat pos _ hpos hbB _ 0 le_rfl h0B (by omega)
      (fun k hk1 hk2 => hno k hk1 hk2)
  · intro k hk0 hkB hbefore hhit
    rw [fbuf_skip_to_eq_loop data pat pos lim hlen]
    exact skip_to_loop_hit data pat pos _ hpos hbB _ 0 k le_rfl hk0 hkB (by omega)
      (fun j hj1 hj2 => hbefore j hj1 hj2) hhit

/-- Claim C4 witness: over the one-byte file [97] with set {44} no byte
matches, so the scan returns start plus the bound. -/
theorem skip_to_characterization_witness :
    fbuf_skip_to [97] 0 (-1) [44] = 0 + scanBound [97] 0 (-1) := by
  apply (skip_to_characterization.1 [97] [44] 0 (-1) (by decide) (by decide) (by decide)).1
  intro k hk0 hkb
  have hb : scanBound [97] 0 (-1) = 1 := by decide
  rw [hb] at hkb
  have hk : k = 0 := by omega
  subst hk
  decide

lemma skip_esc_loop_at_end (data pat : List Nat) (pos bound : Int) :
    ∀ (fuel : ℕ) (i : Int), bound ≤ i → skip_esc_loop data pat pos bound i fuel = pos + i := by
  intro fuel
  cases fuel with
  | zero => intro i _; rfl
  | succ n =>
    intro i hbi
    simp only [skip_esc_loop]
    rw [if_neg (by omega)]

lemma skip_esc_loop_inv (data pat : List Nat) (pos bound : Int)
    (hpos : 0 ≤ pos) (hb : bound ≤ (data.length : Int) - pos) :
    ∀ (fuel : ℕ) (i : Int), 0 ≤ i → i ≤ bound → (bound - i).toNat < fuel →
      pos + i ≤ skip_esc_loop data pat pos bound i fuel
      ∧ skip_esc_loop data pat pos bound i fuel ≤ pos + bound + 1
      ∧ (skip_esc_loop data pat pos bound i fuel < pos + bound →
          hitPat pat (fbuf_at_pure data (skip_esc_loop data pat pos bound i fuel)) = true)
      ∧ (∀ k : Int, pos + i ≤ k → k < skip_esc_loop data pat pos bound i fuel →
          hitPat pat (fbuf_at_pure data k) = true →
          fbuf_at_pure data k = 92 ∨ (pos + i < k ∧ fbuf_at_pure data (k - 1) = 92)) := by
  intro fuel
  induction fuel with
  | zero => intro i _ _ hf; exact absurd hf (Nat.not_lt_zero _)
  | succ n ih =>
    intro i hi0 hib hf
    by_cases hlt : i < bound
    · have hnn := at_pure_nonneg data (pos + i) (by omega) (by omega)
      have h1 : ¬ fbuf_at_pure data (pos + i) < 0 := by omega
      by_cases h92 : fbuf_at_pure data (pos + i) = 92
      · simp only [skip_esc_loop]
        rw [if_pos hlt, if_neg h1, if_pos h92]
        by_cases h2b : i + 2 ≤ bound
        · obtain ⟨ha, hb2, hc, hd⟩ := ih (i + 2) (by omega) h2b (by omega)
          refine ⟨by omega, hb2, hc, ?_⟩
          intro k hk1 hk2 hk3
          by_cases hkc : pos + (i + 2) ≤ k
          · rcases hd k hkc hk2 hk3 with h | h
            · exact Or.inl h
            · exact Or.inr ⟨by omega, h.2⟩
          · rcases (by omega : k = pos + i ∨ k = pos + i + 1) with hk | hk
            · rw [hk]; exact Or.inl h92
            · refine Or.inr ⟨by omega, ?_⟩
              rw [hk, show pos + i + 1 - 1 = pos + i by omega]
              exact h92
        · rw [skip_esc_loop_at_end data pat pos bound n (i + 2) (by omega)]
          refine ⟨by omega, by omega, fun hcon => absurd hcon (by omega), ?_⟩
          intro k hk1 hk2 hk3
          rcases (by omega : k = pos + i ∨ k = pos + i + 1) with hk | hk
          · rw [hk]; exact Or.inl h92
          · refine Or.inr ⟨by omega, ?_⟩
            rw [hk, show pos + i + 1 - 1 = pos + i by omega]
            exact h92
      · by_cases hhit : hitPat pat (fbuf_at_pure data (pos + i)) = true
        · simp only [skip_esc_loop]
          rw [if_pos hlt, if_neg h1, if_neg h92, if_pos hhit]
          refine ⟨le_refl _, by omega, fun _ => hhit, ?_⟩
          intro k hk1 hk2 _
          exact absurd (lt_of_le_of_lt hk1 hk2) (lt_irrefl _)
        · simp only [skip_esc_loop]
          rw [if_pos hlt, if_neg h1, if_neg h92, if_neg hhit]
          obtain ⟨ha, hb2, hc, hd⟩ := ih (i + 1) (by omega) (by omega) (by omega)
          refine ⟨by omega, hb2, hc, ?_⟩
          intro k hk1 hk2 hk3
          by_cases hkc : pos + (i + 1) ≤ k
          · rcases hd k hkc hk2 hk3 with h | h
            · exact Or.inl h
            · exact Or.inr ⟨by omega, h.2⟩
          · have hk : k = pos + i := by omega
            rw [hk] at hk3
            exact absurd hk3 hhit
    · simp only [skip_esc_loop]
      rw [if_neg hlt]
      refine ⟨le_refl _, by omega, fun hcon => absurd hcon (by omega), ?_⟩
      intro k hk1 hk2 _
      exact absurd (lt_of_le_of_lt hk1 hk2) (lt_irrefl _)

lemma fbuf_skip_esc_to_eq_loop (data pat : List Nat) (pos lim : Int) (hpat : pat.length ≠ 0) :
    fbuf_skip_esc_to data pos lim pat
      = skip_esc_loop data pat pos (scanBound data pos lim) 0
          ((scanBound data pos lim).toNat + 1) := by
  simp only [fbuf_skip_esc_to]
  rw [if_neg hpat, code_bound_eq_scanBound]

/-- Claim C8: `fbuf_skip_esc_to` behaves like `fbuf_skip_to` except that a
backslash unconditionally skips the following byte, which is never
tested against the set: the result never lies short of the bound on a
non-member byte, every set member strictly before the returned position
is either itself a backslash opening an escape pair or the byte right
after a backslash, and over the file bytes of the string a backslash
comma b comma c the scan for a comma returns 4, the second comma, not
the first.  Because the trailing-pair skip is unguarded the return can
exceed the no-match convention of `fbuf_skip_to` by one when the last
in-bound byte is a backslash. -/
theorem skip_esc_characterization :
    (∀ (data pat : List Nat) (pos lim r : Int), pat ≠ [] → 0 ≤ pos →
      pos ≤ (data.length : Int) → fbuf_skip_esc_to data pos lim pat = r →
      pos ≤ r ∧ r ≤ pos + scanBound data pos lim + 1
      ∧ (r < pos + scanBound data pos lim → hitPat pat (fbuf_at_pure data r) = true)
      ∧ (∀ k : Int, pos ≤ k → k < r → hitPat pat (fbuf_at_pure data k) = true →
          fbuf_at_pure data k = 92 ∨ (pos < k ∧ fbuf_at_pure data (k - 1) = 92)))
    ∧ fbuf_skip_esc_to [97, 92, 44, 98, 44, 99] 0 (-1) [44] = 4 := by
  refine ⟨?_, by decide⟩
  intro data pat pos lim r hpat hpos hple hr
  have hlen : pat.length ≠ 0 := fun h => hpat (List.length_eq_zero.mp h)
  have h0B := scanBound_nonneg data pos lim hple
  have hbB := scanBound_le data pos lim
  rw [fbuf_skip_esc_to_eq_loop data pat pos lim hlen] at hr
  obtain ⟨ha, hb2, hc, hd⟩ := skip_esc_loop_inv data pat pos (scanBound data pos lim)
    hpos hbB ((scanBound data pos lim).toNat + 1) 0 le_rfl h0B (by omega)
  rw [hr] at ha hb2 hc hd
  refine ⟨by omega, hb2, hc, ?_⟩
  intro k hk1 hk2 hk3
  rcases hd k (by omega) hk2 hk3 with h | h
  · exact Or.inl h
  · exact Or.inr ⟨by omega, h.2⟩

/-- Claim C8 witness: over the one-byte file [97] with set {44} the scan
result is bounded below by the start position. -/
theorem skip_esc_characterization_witness :
    (0 : Int) ≤ fbuf_skip_esc_to [97] 0 (-1) [44] :=
  (skip_esc_characterization.1 [97] [44] 0 (-1) (fbuf_skip_esc_to [97] 0 (-1) [44])
    (by decide) (by decide) (by decide) rfl).1

lemma one_le_quoted_loop (data : List Nat) (pos quote skiplimit : Int) :
    ∀ (fuel : ℕ) (i : Int), 1 ≤ i → 1 ≤ quoted_loop data pos quote skiplimit i fuel := by
  intro fuel
  induction fuel with
  | zero => intro i _; simp only [quoted_loop]; omega
  | succ n ih =>
    intro i hi
    simp only [quoted_loop]
    by_cases hg : i < skiplimit ∧ i < (data.length : Int) - pos
    · rw [if_pos hg]
      by_cases hneg : fbuf_at_pure data (pos + i) < 0
      · rw [if_pos hneg]; omega
      · rw [if_neg hneg]
        by_cases h92 : fbuf_at_pure data (pos + i) = 92
        · rw [if_pos h92]; exact ih (i + 2) (by omega)
        · rw [if_neg h92]
          by_cases hq : fbuf_at_pure data (pos + i) = quote
          · rw [if_pos hq]; omega
          · rw [if_neg hq]; exact ih (i + 1) (by omega)
    · rw [if_neg hg]

lemma quoted_loop_le (data : List Nat) (pos quote skiplimit : Int) :
    ∀ (fuel : ℕ) (i : Int), 1 ≤ i →
      quoted_loop data pos quote skiplimit i fuel ≤ 1
      ∨ quoted_loop data pos quote skiplimit i fuel ≤ skiplimit := by
  intro fuel
  induction fuel with
  | zero => intro i _; left; simp only [quoted_loop]; omega
  | succ n ih =>
    intro i hi
    simp only [quoted_loop]
    by_cases hg : i < skiplimit ∧ i < (data.length : Int) - pos
    · rw [if_pos hg]
      by_cases hneg : fbuf_at_pure data (pos + i) < 0
      · rw [if_pos hneg]; right; omega
      · rw [if_neg hneg]
        by_cases h92 : fbuf_at_pure data (pos + i) = 92
        · rw [if_pos h92]; exact ih (i + 2) (by omega)
        · rw [if_neg h92]
          by_cases hq : fbuf_at_pure data (pos + i) = quote
          · rw [if_pos hq]; right; omega
          · rw [if_neg hq]; exact ih (i + 1) (by omega)
    · rw [if_neg hg]; left; omega

lemma quoted_loop_cases (data : List Nat) (pos quote skiplimit : Int) (hpos : 0 ≤ pos) :
    ∀ (fuel : ℕ) (i : Int), 1 ≤ i →
      quoted_loop data pos quote skiplimit i fuel = 1
      ∨ ∃ j : Int, i ≤ j ∧ j < skiplimit ∧ j < (data.length : Int) - pos
          ∧ fbuf_at_pure data (pos + j) = quote
          ∧ quoted_loop data pos quote skiplimit i fuel = j + 1 := by
  intro fuel
  induction fuel with
  | zero => intro i _; left; simp only [quoted_loop]
  | succ n ih =>
    intro i hi
    simp only [quoted_loop]
    by_cases hg : i < skiplimit ∧ i < (data.length : Int) - pos
    · rw [if_pos hg]
      have hnn := at_pure_nonneg data (pos + i) (by omega) (by omega)
      have hneg : ¬ fbuf_at_pure data (pos + i) < 0 := by omega
      rw [if_neg hneg]
      by_cases h92 : fbuf_at_pure data (pos + i) = 92
      · rw [if_pos h92]
        rcases ih (i + 2) (by omega) with h | ⟨j, hj1, hj2, hj3, hj4, hj5⟩
        · exact Or.inl h
        · exact Or.inr ⟨j, by omega, hj2, hj3, hj4, hj5⟩
      · rw [if_neg h92]
        by_cases hq : fbuf_at_pure data (pos + i) = quote
        · rw [if_pos hq]
          exact Or.inr ⟨i, le_refl _, hg.1, hg.2, hq, rfl⟩
        · rw [if_neg hq]
          rcases ih (i + 1) (by omega) with h | ⟨j, hj1, hj2, hj3, hj4, hj5⟩
          · exact Or.inl h
          · exact Or.inr ⟨j, by omega, hj2, hj3, hj4, hj5⟩
    · rw [if_neg hg]; exact Or.inl rfl

lemma quotedstrlen_eq_loop (data : List Nat) (q lim : Int)
    (hlen : ¬ (data.length : Int) ≤ q)
    (hq : fbuf_at_pure data q = 34 ∨ fbuf_at_pure data q = 39) :
    fbuf_quotedstrlen data q lim
      = quoted_loop data q (fbuf_at_pure data q) lim 1 (((data.length : Int) - q).toNat + 1) := by
  simp only [fbuf_quotedstrlen]
  rw [if_neg hlen, if_neg (by tauto)]

lemma quotedstrlen_pos (data : List Nat) (q lim : Int)
    (_h0 : 0 ≤ q) (hlt : q < (data.length : Int))
    (hq : fbuf_at_pure data q = 34 ∨ fbuf_at_pure data q = 39) :
    1 ≤ fbuf_quotedstrlen data q lim := by
  rw [quotedstrlen_eq_loop data q lim (by omega) hq]
  exact one_le_quoted_loop data q _ lim _ 1 le_rfl

lemma quotedstrlen_le (data : List Nat) (q lim : Int) :
    fbuf_quotedstrlen data q lim ≤ 1 ∨ fbuf_quotedstrlen data q lim ≤ lim := by
  simp only [fbuf_quotedstrlen]
  split_ifs
  · left; omega
  · left; omega
  · exact quoted_loop_le data q _ lim _ 1 le_rfl

lemma skip_quote_loop_inv (data pat : List Nat) (pos bound : Int)
    (hpos : 0 ≤ pos) (hb : bound ≤ (data.length : Int) - pos) :
    ∀ (fuel : ℕ) (i : Int), 0 ≤ i → i ≤ bound → (bound - i).toNat < fuel →
      pos + i ≤ skip_quote_loop data pat pos bound i fuel
      ∧ skip_quote_loop data pat pos bound i fuel ≤ pos + bound
      ∧ (skip_quote_loop data pat pos bound i fuel < pos + bound →
          hitPat pat (fbuf_at_pure data (skip_quote_loop data pat pos bound i fuel)) = true) := by
  intro fuel
  induction fuel with
  | zero => intro i _ _ hf; exact absurd hf (Nat.not_lt_zero _)
  | succ n ih =>
    intro i hi0 hib hf
    by_cases hlt : i < bound
    · have hnn := at_pure_nonneg data (pos + i) (by omega) (by omega)
      have h1 : ¬ fbuf_at_pure data (pos + i) < 0 := by omega
      simp only [skip_quote_loop]
      rw [if_pos hlt, if_neg h1]
      by_cases h92 : fbuf_at_pure data (pos + i) = 92 ∧ i + 1 < bound
      · rw [if_pos h92]
        obtain ⟨ha, hb2, hc⟩ := ih (i + 2) (by omega) (by omega) (by omega)
        exact ⟨by omega, hb2, hc⟩
      · rw [if_neg h92]
        by_cases hhit : hitPat pat (fbuf_at_pure data (pos + i)) = true
        · rw [if_pos hhit]
          exact ⟨le_refl _, by omega, fun _ => hhit⟩
        · rw [if_neg hhit]
          by_cases hq : fbuf_at_pure data (pos + i) = 34 ∨ fbuf_at_pure data (pos + i) = 39
          · rw [if_pos hq]
            have hq1 : 1 ≤ fbuf_quotedstrlen data (pos + i) (bound - i) :=
              quotedstrlen_pos data (pos + i) (bound - i) (by omega) (by omega) hq
            have hq2 := quotedstrlen_le data (pos + i) (bound - i)
            have hle : i + fbuf_quotedstrlen data (pos + i) (bound - i) ≤ bound := by omega
            obtain ⟨ha, hb2, hc⟩ := ih (i + fbuf_quotedstrlen data (pos + i) (bound - i))
              (by omega) hle (by omega)
            exact ⟨by omega, hb2, hc⟩
          · rw [if_neg hq]
            obtain ⟨ha, hb2, hc⟩ := ih (i + 1) (by omega) (by omega) (by omega)
            exact ⟨by omega, hb2, hc⟩
    · simp only [skip_quote_loop]
      rw [if_neg hlt]
      exact ⟨le_refl _, by omega, fun hcon => absurd hcon (by omega)⟩

lemma fbuf_skip_quote_to_eq_loop (data pat : List Nat) (pos lim : Int)
    (hpat : pat.length ≠ 0) :
    fbuf_skip_quote_to data pos lim pat
      = skip_quote_loop data pat pos (scanBound data pos lim) 0
          ((scanBound data pos lim).toNat + 1) := by
  simp only [fbuf_skip_quote_to]
  rw [if_neg hpat, code_bound_eq_scanBound]

/-- Claim C7, amended: `fbuf_skip_quote_to` behaves like `fbuf_skip_to`,
except that a backslash whose follower is still within the bound is
consumed as a pair without testing either byte against the set (a
backslash that is the last in-bound byte IS tested normally, see the
counterexample), and a quote byte not in the set advances the scan by
`fbuf_quotedstrlen`, so set members inside a properly terminated quoted
run never stop the scan, while after an unterminated run (length 1 from
`fbuf_quotedstrlen`) the bytes following the opening quote are scanned
normally.  The general part: the result stays within
`[start, start + bound]` and stops short of the bound only on a byte of
the set.  The concrete parts: a comma inside an escape pair is skipped
(result 3 on backslash comma a comma), a comma inside a closed single
quote run is skipped (result 6), a comma after an unterminated opening
quote DOES stop the scan (result 2), and a trailing backslash in the set
stops the scan at itself (result 1). -/
theorem skip_quote_behavior :
    (∀ (data pat : List Nat) (pos lim r : Int), pat ≠ [] → 0 ≤ pos →
      pos ≤ (data.length : Int) → fbuf_skip_quote_to data pos lim pat = r →
      pos ≤ r ∧ r ≤ pos + scanBound data pos lim
      ∧ (r < pos + scanBound data pos lim → hitPat pat (fbuf_at_pure data r) = true))
    ∧ fbuf_skip_quote_to [92, 44, 97, 44] 0 (-1) [44] = 3
    ∧ fbuf_skip_quote_to [39, 97, 44, 98, 39, 99, 44, 100] 0 (-1) [44] = 6
    ∧ fbuf_skip_quote_to [39, 97, 44] 0 (-1) [44] = 2
    ∧ fbuf_skip_quote_to [97, 92] 0 (-1) [92] = 1 := by
  refine ⟨?_, by decide, by decide, by decide, by decide⟩
  intro data pat pos lim r hpat hpos hple hr
  have hlen : pat.length ≠ 0 := fun h => hpat (List.length_eq_zero.mp h)
  have h0B := scanBound_nonneg data pos lim hple
  have hbB := scanBound_le data pos lim
  rw [fbuf_skip_quote_to_eq_loop data pat pos lim hlen] at hr
  obtain ⟨ha, hb2, hc⟩ := skip_quote_loop_inv data pat pos (scanBound data pos lim)
    hpos hbB ((scanBound data pos lim).toNat + 1) 0 le_rfl h0B (by omega)
  rw [hr] at ha hb2 hc
  exact ⟨by omega, hb2, hc⟩

/-- Claim C7 witness: over the one-byte file [97] with set {44} the scan
result is bounded below by the start position. -/
theorem skip_quote_behavior_witness :
    (0 : Int) ≤ fbuf_skip_quote_to [97] 0 (-1) [44] :=
  (skip_quote_behavior.1 [97] [44] 0 (-1) (fbuf_skip_quote_to [97] 0 (-1) [44])
    (by decide) (by decide) (by decide) rfl).1

/-- Claim C3 (amended): `fbuf_quotedstrlen` returns 0 whenever the byte at the
start is neither byte 34 nor byte 39; otherwise a backslash inside the
run skips the following byte and the matching opener byte terminates the
run with the result counting both quote bytes (the result is at least 2,
at most `min(bound, remaining file)`, and the byte at the last counted
position equals the opener); when the bound or the file is exhausted
before an unescaped closing quote is found the function returns 1 —
only the opening quote is reported as consumed, NOT the number of bytes
examined (that number is returned only when a byte read fails mid-run,
which cannot happen in the pure model).  Concretely: a full quoted run
with an escaped inner quote gives 8, a bound of 2 that stops before the
closing quote gives 1, and an unterminated run of 3 examined bytes
gives 1. -/
theorem quotedstrlen_behavior :
    (∀ (data : List Nat) (pos lim : Int),
      ((¬ (fbuf_at_pure data pos = 34 ∨ fbuf_at_pure data pos = 39)) →
        fbuf_quotedstrlen data pos lim = 0)
      ∧ (fbuf_quotedstrlen data pos lim = 0 ∨ fbuf_quotedstrlen data pos lim = 1
         ∨ (2 ≤ fbuf_quotedstrlen data pos lim
            ∧ fbuf_quotedstrlen data pos lim ≤ min lim ((data.length : Int) - pos)
            ∧ fbuf_at_pure data (pos + fbuf_quotedstrlen data pos lim - 1)
                = fbuf_at_pure data pos)))
    ∧ fbuf_quotedstrlen [34, 97, 98, 92, 34, 99, 100, 34, 120, 121, 122] 0 100 = 8
    ∧ fbuf_quotedstrlen [34, 97, 34] 0 2 = 1
    ∧ fbuf_quotedstrlen [34, 97, 98] 0 100 = 1 := by
  refine ⟨?_, by decide, by decide, by decide⟩
  intro data pos lim
  have hzero : (¬ (fbuf_at_pure data pos = 34 ∨ fbuf_at_pure data pos = 39)) →
      fbuf_quotedstrlen data pos lim = 0 := by
    intro hnq
    simp only [fbuf_quotedstrlen]
    split_ifs with h1 h2
    · rfl
    · rfl
    · exact absurd (by tauto : fbuf_at_pure data pos = 34 ∨ fbuf_at_pure data pos = 39) hnq
  refine ⟨hzero, ?_⟩
  by_cases hq : fbuf_at_pure data pos = 34 ∨ fbuf_at_pure data pos = 39
  · by_cases hin : (data.length : Int) ≤ pos
    · left
      simp only [fbuf_quotedstrlen]
      rw [if_pos hin]
    · have hpos0 : 0 ≤ pos := by
        by_contra hneg
        rw [at_pure_neg data pos (by omega)] at hq
        omega
      have heq := quotedstrlen_eq_loop data pos lim hin hq
      rcases quoted_loop_cases data pos (fbuf_at_pure data pos) lim hpos0
          (((data.length : Int) - pos).toNat + 1) 1 le_rfl with h1 | ⟨j, hj1, hj2, hj3, hj4, hj5⟩
      · right; left; rw [heq, h1]
      · right; right
        rw [heq, hj5]
        refine ⟨by omega, by omega, ?_⟩
        rw [show pos + (j + 1) - 1 = pos + j by omega]
        exact hj4
  · left; exact hzero hq

/-- Claim C3 witness: on the one-byte file [97] whose first byte is not a
quote, the function returns 0. -/
theorem quotedstrlen_behavior_witness :
    fbuf_quotedstrlen [97] 0 5 = 0 :=
  (quotedstrlen_behavior.1 [97] 0 5).1 (by decide)

lemma fbuf_at_st_state (fbf : Fbuf) (data : List Nat) (pos : Int) (fail : Bool) :
    (fbuf_at_st fbf data pos fail).2 = (fbuf_mmap fbf pos fail).2 := by
  simp only [fbuf_at_st]
  split_ifs <;> rfl

lemma fbuf_ptr_st_state (fbf : Fbuf) (data : List Nat) (pos : Int) (fail : Bool) :
    (fbuf_ptr_st fbf data pos fail).2 = (fbuf_mmap fbf pos fail).2 := by
  simp only [fbuf_ptr_st]
  split_ifs <;> rfl

lemma fbuf_read_st_state (fbf : Fbuf) (data : List Nat) (pos len : Int) (fail : Bool) :
    (fbuf_read_st fbf data pos len fail).2.2
      = if len ≤ 0 then fbf else (fbuf_mmap fbf pos fail).2 := by
  simp only [fbuf_read_st]
  split_ifs <;> rfl

lemma fbuf_mmap_remap_state (fbf : Fbuf) (pos : Int) (fail : Bool)
    (h1 : ¬(pos < 0 ∨ fbf.fsize ≤ pos))
    (hout : pos < fbf.mapoff ∨ fbf.mapoff + fbf.maplen ≤ pos) :
    (fbuf_mmap fbf pos fail).2 = { fbf with
      mapoff := pos / fbf.pagesize * fbf.pagesize,
      maplen := if fbf.mapsize < fbf.fsize - pos / fbf.pagesize * fbf.pagesize
                then fbf.mapsize else fbf.fsize - pos / fbf.pagesize * fbf.pagesize,
      pbyte := if fail then MapPtr.mapFailed else MapPtr.mapped,
      mapcalls := fbf.mapcalls + 1 } := by
  simp only [fbuf_mmap]
  rw [if_neg h1, if_pos hout]
  split_ifs <;> rfl

lemma fbuf_mmap_state_cases (fbf : Fbuf) (pos : Int) (fail : Bool) :
    (fbuf_mmap fbf pos fail).2 = fbf
    ∨ ((0 ≤ pos ∧ pos < fbf.fsize ∧ (pos < fbf.mapoff ∨ fbf.mapoff + fbf.maplen ≤ pos))
       ∧ (fbuf_mmap fbf pos fail).2 = { fbf with
            mapoff := pos / fbf.pagesize * fbf.pagesize,
            maplen := if fbf.mapsize < fbf.fsize - pos / fbf.pagesize * fbf.pagesize
                      then fbf.mapsize else fbf.fsize - pos / fbf.pagesize * fbf.pagesize,
            pbyte := if fail then MapPtr.mapFailed else MapPtr.mapped,
            mapcalls := fbf.mapcalls + 1 }) := by
  by_cases h1 : pos < 0 ∨ fbf.fsize ≤ pos
  · left; simp only [fbuf_mmap]; rw [if_pos h1]
  · by_cases h2 : pos < fbf.mapoff ∨ fbf.mapoff + fbf.maplen ≤ pos
    · exact Or.inr ⟨⟨by omega, by omega, h2⟩, fbuf_mmap_remap_state fbf pos fail h1 h2⟩
    · left; simp only [fbuf_mmap]; rw [if_neg h1, if_neg h2]

lemma fbuf_mmap_preserves (fbf : Fbuf) (pos : Int) (fail : Bool)
    (h1 : fbf.mapoff % fbf.pagesize = 0) (h2 : fbf.mapoff + fbf.maplen ≤ fbf.fsize) :
    (fbuf_mmap fbf pos fail).2.mapoff % (fbuf_mmap fbf pos fail).2.pagesize = 0
    ∧ (fbuf_mmap fbf pos fail).2.mapoff + (fbuf_mmap fbf pos fail).2.maplen
        ≤ (fbuf_mmap fbf pos fail).2.fsize := by
  rcases fbuf_mmap_state_cases fbf pos fail with h | ⟨_, h⟩
  · rw [h]; exact ⟨h1, h2⟩
  · rw [h]
    constructor
    · exact Int.mul_emod_left _ _
    · show pos / fbf.pagesize * fbf.pagesize
          + (if fbf.mapsize < fbf.fsize - pos / fbf.pagesize * fbf.pagesize
             then fbf.mapsize else fbf.fsize - pos / fbf.pagesize * fbf.pagesize)
          ≤ fbf.fsize
      split_ifs <;> omega

/-- Claim C6: in every state reachable by opening a buffer (any nonnegative
file size) and performing any sequence of accesses with any outcomes of
the mapping call, `mapoff` is a multiple of `pagesize` and
`mapoff + maplen` never exceeds `fsize`. -/
theorem reachable_window_invariant (fbf : Fbuf) (h : Reachable fbf) :
    fbf.mapoff % fbf.pagesize = 0 ∧ fbf.mapoff + fbf.maplen ≤ fbf.fsize := by
  induction h with
  | init fsize pagecount sysPagesize hfs =>
    simp only [fbuf_init]
    exact ⟨Int.zero_emod _, by omega⟩
  | mmap_step fbf pos fail hr ih =>
    exact fbuf_mmap_preserves fbf pos fail ih.1 ih.2
  | at_step fbf data pos fail hr ih =>
    rw [fbuf_at_st_state]
    exact fbuf_mmap_preserves fbf pos fail ih.1 ih.2
  | ptr_step fbf data pos fail hr ih =>
    rw [fbuf_ptr_st_state]
    exact fbuf_mmap_preserves fbf pos fail ih.1 ih.2
  | read_step fbf data pos len fail hr ih =>
    rw [fbuf_read_st_state]
    by_cases hl : len ≤ 0
    · rw [if_pos hl]; exact ih
    · rw [if_neg hl]
      exact fbuf_mmap_preserves fbf pos fail ih.1 ih.2

/-- Claim C6 witness: the freshly opened buffer on an 8-byte file satisfies
the invariant. -/
theorem reachable_window_invariant_witness :
    (fbuf_init 8 8 4096).mapoff % (fbuf_init 8 8 4096).pagesize = 0
    ∧ (fbuf_init 8 8 4096).mapoff + (fbuf_init 8 8 4096).maplen ≤ (fbuf_init 8 8 4096).fsize :=
  reachable_window_invariant _ (Reachable.init 8 8 4096 (by omega))

/-- Claim C2: `fbuf_mmap` returns the out-of-range error -2 exactly when the
position lies outside the half-open range 0 to `fsize`; for an in-range
position outside the current window, the new window offset is the floor
of `pos / pagesize` scaled back by `pagesize` and the new window length
is the minimum of the window capacity (`mapsize`) and the bytes left
from the new offset to the end of the file, regardless of whether the
mapping call then succeeds. -/
theorem mmap_out_of_range_and_remap_geometry :
    ∀ (fbf : Fbuf) (pos : Int) (fail : Bool), 0 < fbf.pagesize →
      (((fbuf_mmap fbf pos fail).1 = -2) ↔ (pos < 0 ∨ fbf.fsize ≤ pos))
      ∧ (0 ≤ pos → pos < fbf.fsize → (pos < fbf.mapoff ∨ fbf.mapoff + fbf.maplen ≤ pos) →
          (fbuf_mmap fbf pos fail).2.mapoff = Int.fdiv pos fbf.pagesize * fbf.pagesize
          ∧ (fbuf_mmap fbf pos fail).2.maplen
              = min fbf.mapsize (fbf.fsize - (fbuf_mmap fbf pos fail).2.mapoff)) := by
  intro fbf pos fail hps
  constructor
  · simp only [fbuf_mmap]
    by_cases h1 : pos < 0 ∨ fbf.fsize ≤ pos
    · rw [if_pos h1]
      exact iff_of_true rfl h1
    · rw [if_neg h1]
      by_cases h2 : pos < fbf.mapoff ∨ fbf.mapoff + fbf.maplen ≤ pos
      · rw [if_pos h2]
        by_cases hf : fail = true
        · rw [if_pos hf]
          exact iff_of_false (by norm_num) h1
        · rw [if_neg hf]
          exact iff_of_false (by norm_num) h1
      · rw [if_neg h2]
        exact iff_of_false (by norm_num) h1
  · intro hp0 hpf hout
    have h1 : ¬(pos < 0 ∨ fbf.fsize ≤ pos) := by omega
    rw [fbuf_mmap_remap_state fbf pos fail h1 hout]
    constructor
    · show pos / fbf.pagesize * fbf.pagesize = Int.fdiv pos fbf.pagesize * fbf.pagesize
      rw [Int.fdiv_eq_ediv _ (le_of_lt hps)]
    · show (if fbf.mapsize < fbf.fsize - pos / fbf.pagesize * fbf.pagesize
            then fbf.mapsize else fbf.fsize - pos / fbf.pagesize * fbf.pagesize)
          = min fbf.mapsize (fbf.fsize - pos / fbf.pagesize * fbf.pagesize)
      split_ifs <;> omega

/-- Claim C2 witness: on a freshly opened 10-byte buffer, position -1 is
rejected with -2. -/
theorem mmap_out_of_range_and_remap_geometry_witness :
    ((fbuf_mmap (fbuf_init 10 8 4096) (-1) false).1 = -2
      ↔ ((-1 : Int) < 0 ∨ (fbuf_init 10 8 4096).fsize ≤ -1)) :=
  (mmap_out_of_range_and_remap_geometry (fbuf_init 10 8 4096) (-1) false (by decide)).1

/-- Claim C5: a position already inside the current window never remaps:
`fbuf_mmap`, `fbuf_at_st` and `fbuf_ptr_st` leave the whole state —
including the ghost count of mapping calls — unchanged, and conversely
any state change of `fbuf_mmap` implies the position was outside the
window. -/
theorem in_window_access_idempotent :
    ∀ (fbf : Fbuf) (data : List Nat) (pos : Int) (fail : Bool),
      ((fbf.mapoff ≤ pos ∧ pos < fbf.mapoff + fbf.maplen) →
        (fbuf_mmap fbf pos fail).2 = fbf
        ∧ (fbuf_at_st fbf data pos fail).2 = fbf
        ∧ (fbuf_ptr_st fbf data pos fail).2 = fbf
        ∧ (fbuf_mmap fbf pos fail).2.mapcalls = fbf.mapcalls)
      ∧ ((fbuf_mmap fbf pos fail).2 ≠ fbf →
          (pos < fbf.mapoff ∨ fbf.mapoff + fbf.maplen ≤ pos)) := by
  intro fbf data pos fail
  have hmm : (fbf.mapoff ≤ pos ∧ pos < fbf.mapoff + fbf.maplen) →
      (fbuf_mmap fbf pos fail).2 = fbf := by
    intro hin
    have h2 : ¬(pos < fbf.mapoff ∨ fbf.mapoff + fbf.maplen ≤ pos) := by omega
    simp only [fbuf_mmap]
    by_cases h1 : pos < 0 ∨ fbf.fsize ≤ pos
    · rw [if_pos h1]
    · rw [if_neg h1, if_neg h2]
  constructor
  · intro hin
    refine ⟨hmm hin, ?_, ?_, by rw [hmm hin]⟩
    · rw [fbuf_at_st_state]; exact hmm hin
    · rw [fbuf_ptr_st_state]; exact hmm hin
  · intro hne
    by_contra hcon
    push_neg at hcon
    exact hne (hmm (by omega))

/-- Claim C5 witness: a buffer whose window covers positions 0 to 10 is left
unchanged by an access at position 5. -/
theorem in_window_access_idempotent_witness :
    (fbuf_mmap ⟨10, 8, 4096, 32768, 0, 10, MapPtr.mapped, 1⟩ 5 false).2
      = ⟨10, 8, 4096, 32768, 0, 10, MapPtr.mapped, 1⟩ :=
  ((in_window_access_idempotent ⟨10, 8, 4096, 32768, 0, 10, MapPtr.mapped, 1⟩ [] 5 false).1
    (by decide)).1

lemma fbuf_mmap_success (fbf : Fbuf) (pos : Int)
    (hps : 0 < fbf.pagesize) (hcap : fbf.pagesize ≤ fbf.mapsize)
    (hoff : 0 ≤ fbf.mapoff) (hwin : fbf.mapoff + fbf.maplen ≤ fbf.fsize)
    (hp0 : 0 ≤ pos) (hpf : pos < fbf.fsize) :
    (fbuf_mmap fbf pos false).1 = 0
    ∧ (fbuf_mmap fbf pos false).2.mapoff ≤ pos
    ∧ pos < (fbuf_mmap fbf pos false).2.mapoff + (fbuf_mmap fbf pos false).2.maplen
    ∧ 0 ≤ (fbuf_mmap fbf pos false).2.mapoff
    ∧ (fbuf_mmap fbf pos false).2.mapoff + (fbuf_mmap fbf pos false).2.maplen ≤ fbf.fsize
    ∧ (fbuf_mmap fbf pos false).2.mapcalls ≤ fbf.mapcalls + 1 := by
  have h1 : ¬(pos < 0 ∨ fbf.fsize ≤ pos) := by omega
  by_cases h2 : pos < fbf.mapoff ∨ fbf.mapoff + fbf.maplen ≤ pos
  · have hmod1 : 0 ≤ pos % fbf.pagesize := Int.emod_nonneg pos (by omega)
    have hmod2 : pos % fbf.pagesize < fbf.pagesize := Int.emod_lt_of_pos pos hps
    have hdm : fbf.pagesize * (pos / fbf.pagesize) + pos % fbf.pagesize = pos :=
      Int.ediv_add_emod pos fbf.pagesize
    have hcomm : pos / fbf.pagesize * fbf.pagesize = fbf.pagesize * (pos / fbf.pagesize) :=
      Int.mul_comm _ _
    have hqn : 0 ≤ pos / fbf.pagesize := Int.ediv_nonneg hp0 (le_of_lt hps)
    have hofn : 0 ≤ fbf.pagesize * (pos / fbf.pagesize) := mul_nonneg (le_of_lt hps) hqn
    have hres : (fbuf_mmap fbf pos false).1 = 0 := by
      simp only [fbuf_mmap]
      rw [if_neg h1, if_pos h2, if_neg Bool.false_ne_true]
    rw [fbuf_mmap_remap_state fbf pos false h1 h2]
    refine ⟨hres, ?_, ?_, ?_, ?_, le_refl _⟩
    · show pos / fbf.pagesize * fbf.pagesize ≤ pos
      omega
    · show pos < pos / fbf.pagesize * fbf.pagesize
          + (if fbf.mapsize < fbf.fsize - pos / fbf.pagesize * fbf.pagesize
             then fbf.mapsize else fbf.fsize - pos / fbf.pagesize * fbf.pagesize)
      split_ifs <;> omega
    · show 0 ≤ pos / fbf.pagesize * fbf.pagesize
      omega
    · show pos / fbf.pagesize * fbf.pagesize
          + (if fbf.mapsize < fbf.fsize - pos / fbf.pagesize * fbf.pagesize
             then fbf.mapsize else fbf.fsize - pos / fbf.pagesize * fbf.pagesize)
          ≤ fbf.fsize
      split_ifs <;> omega
  · have hstate : (fbuf_mmap fbf pos false).2 = fbf := by
      simp only [fbuf_mmap]
      rw [if_neg h1, if_neg h2]
    have hres : (fbuf_mmap fbf pos false).1 = 0 := by
      simp only [fbuf_mmap]
      rw [if_neg h1, if_neg h2]
    rw [hstate]
    push_neg at h2
    exact ⟨hres, by omega, by omega, hoff, hwin, by omega⟩

/-- Claim C9: for a valid position and a positive requested length, the bulk
read through the windowed buffer returns exactly
`min(len, window_length - (pos - window_offset))` for the window ensured
at `pos` — both as its return value and as the number of bytes actually
delivered — never an error and never more than requested, and it makes
at most one mapping call.  The hypotheses are the geometric facts every
open buffer satisfies (they hold in every reachable state) plus the file
image matching the recorded file size. -/
theorem read_truncates_at_window_end (fbf : Fbuf) (data : List Nat) (pos len : Int)
    (hps : 0 < fbf.pagesize) (hcap : fbf.pagesize ≤ fbf.mapsize)
    (hoff : 0 ≤ fbf.mapoff) (hwin : fbf.mapoff + fbf.maplen ≤ fbf.fsize)
    (hdata : (data.length : Int) = fbf.fsize)
    (hp0 : 0 ≤ pos) (hpf : pos < fbf.fsize) (hlen : 0 < len) :
    ∀ r bytes s2, fbuf_read_st fbf data pos len false = (r, bytes, s2) →
      r = min len (s2.maplen - (pos - s2.mapoff))
      ∧ 0 < r ∧ r ≤ len
      ∧ (bytes.length : Int) = r
      ∧ s2.mapcalls ≤ fbf.mapcalls + 1 := by
  intro r bytes s2 heq
  obtain ⟨hc0, hle, hgt, hge0, hfs, hmc⟩ :=
    fbuf_mmap_success fbf pos hps hcap hoff hwin hp0 hpf
  have hl : ¬ len ≤ 0 := by omega
  have hr1 : ¬ (fbuf_mmap fbf pos false).1 < 0 := by omega
  simp only [fbuf_read_st] at heq
  rw [if_neg hl, if_neg hr1] at heq
  injection heq with h_r h_rest
  injection h_rest with h_bytes h_s2
  subst h_r
  subst h_bytes
  subst h_s2
  have hml : 0 ≤ (fbuf_mmap fbf pos false).2.maplen := by omega
  refine ⟨by split_ifs <;> omega, by split_ifs <;> omega, by split_ifs <;> omega, ?_, hmc⟩
  simp only [List.length_take, List.length_drop, window_bytes]
  by_cases halen : (fbuf_mmap fbf pos false).2.maplen
      - (pos - (fbuf_mmap fbf pos false).2.mapoff) < len
  · rw [if_pos halen]
    omega
  · rw [if_neg halen]
    omega

/-- Claim C9 witness: reading 100 bytes at position 3 of a 10-byte file
delivers a positive number of bytes. -/
theorem read_truncates_at_window_end_witness :
    0 < (fbuf_read_st (fbuf_init 10 8 4096) [0, 1, 2, 3, 4, 5, 6, 7, 8, 9] 3 100 false).1 :=
  (read_truncates_at_window_end (fbuf_init 10 8 4096) [0, 1, 2, 3, 4, 5, 6, 7, 8, 9] 3 100
    (by decide) (by decide) (by decide) (by decide) (by decide) (by decide) (by decide)
    (by decide) _ _ _ rfl).2.1

end Fileop
